import Mathlib

/-!
Verification of the Enhancement Pipeline of the consciousness-hooks
repository against its natural-language specification.

The development shallowly embeds the relevant parts of the source:

* `GitHookManager` (vscode-extension/src/providers/InteractiveHooksProvider.ts):
  `parseHookOutput`, `applyAllSuggestions`, `acceptChanges`, `runSingleHook`
  (its close handler), `analyzeFiles` / `analyzeFile`.
* `interactive-hook-framework.sh`: `get_user_choice`, `create_backup`,
  `apply_changes`, and the per-file decision logic of `interactive_mode`.

JavaScript strings are modelled as `List Char`; `String.prototype.split`,
`Array.prototype.join`, `Array.prototype.splice`, element assignment and the
stable `Array.prototype.sort` are modelled by executable Lean functions below.
-/

set_option linter.unusedVariables false

namespace CHooks

/-- JavaScript strings are modelled as lists of characters. -/
abbrev Str := List Char

/-- Model of `s.split(sep)` for a one-character separator: JavaScript returns
a non-empty array of the (separator-free) pieces; `"".split(sep)` is `[""]`. -/
def splitOnChar (sep : Char) : Str → List Str
  | [] => [[]]
  | c :: rest =>
    match splitOnChar sep rest with
    | [] => [[c]]
    | piece :: pieces =>
      if c = sep then [] :: piece :: pieces else (c :: piece) :: pieces

/-- Model of `parts.join(sep)` for a one-character separator. -/
def joinWith (sep : Char) : List Str → Str
  | [] => []
  | [piece] => piece
  | piece :: pieces => piece ++ sep :: joinWith sep pieces

/-- Model of `lines.splice(start, count, repl0, repl1, ...)` for a
non-negative `start`: remove `count` elements from index `start` and insert
`repl` there.  JavaScript clamps `start` to the array length (so an
out-of-range start appends) and deletes at most the remaining elements;
`List.take`/`List.drop` have the same clamping behaviour. -/
def splice {α : Type} (l : List α) (start count : Nat) (repl : List α) : List α :=
  l.take start ++ repl ++ l.drop (start + count)

/-- Stable insertion into a list sorted descending by `key`: the model of what
JavaScript's stable `Array.prototype.sort` does with a `(a, b) => key b - key a`
comparator.  An element is inserted after every earlier element whose key is
strictly larger, and before the first element whose key is `≤` its own, so
elements with equal keys keep their original relative order. -/
def insertDescBy {α : Type} (key : α → Nat) (x : α) : List α → List α
  | [] => [x]
  | y :: ys => if key x < key y then y :: insertDescBy key x ys else x :: y :: ys

/-- Model of `arr.sort((a, b) => key b - key a)`: a stable descending sort. -/
def sortByKeyDesc {α : Type} (key : α → Nat) : List α → List α
  | [] => []
  | x :: xs => insertDescBy key x (sortByKeyDesc key xs)

/-- Model of `line.startsWith(p)`: the first argument is the candidate
leading segment. -/
def startsWithList : Str → Str → Bool
  | [], _ => true
  | _ :: _, [] => false
  | p :: ps, c :: cs => p == c && startsWithList ps cs

/-- Severity union type of `EnhancementSuggestion.severity`
(`'info' | 'warning' | 'error'`). -/
inductive Severity where
  | info
  | warning
  | error
deriving DecidableEq, Repr

/-- `GitHookManager.getSeverityFromType`: `security` maps to `error`,
`quality` and `documentation` map to `warning`, anything else to `info`. -/
def getSeverityFromType (ty : Str) : Severity :=
  if ty = "security".toList then .error
  else if ty = "quality".toList ∨ ty = "documentation".toList then .warning
  else .info

/-- The `EnhancementSuggestion` record.  The `vscode.Range` is represented by
its `start.line` and `end.line` fields, the only parts the engine reads
(`parseHookOutput` always builds a same-line range; the character columns are
never consulted by `applyAllSuggestions` or `acceptChanges`).  The `id` field
(hook name + line + `Date.now()`) is wall-clock dependent and not used by any
operation verified here, so it is omitted. -/
structure Suggestion where
  ty : Str
  description : Str
  original : Str
  enhanced : Str
  startLine : Nat
  endLine : Nat
  severity : Severity
  hookName : Str
deriving DecidableEq, Repr

/-- Digits of a decimal numeral folded into a `Nat`. -/
def digitsToNat (ds : List Char) : Nat :=
  ds.foldl (fun a c => a * 10 + (c.toNat - 48)) 0

/-- Longest leading digit run, `none` when there is no leading digit. -/
def parseDigits (l : List Char) : Option Nat :=
  let ds := l.takeWhile Char.isDigit
  if ds = [] then none else some (digitsToNat ds)

/-- Model of JavaScript `parseInt(s, 10)`: skip leading whitespace, accept an
optional sign, read the longest digit prefix; `none` models `NaN` (every
`NaN` comparison in the guard below is false, so a `none` line number is
dropped exactly as the source drops a `NaN` one). -/
def parseIntJS (s : Str) : Option Int :=
  let t := s.dropWhile (fun c => c == ' ' || c == '\t')
  match t with
  | '-' :: rest => (parseDigits rest).map (fun n => -(n : Int))
  | '+' :: rest => (parseDigits rest).map (fun n => (n : Int))
  | _ => (parseDigits t).map (fun n => (n : Int))

/-- One iteration of the `parseHookOutput` loop body: split the line on `:`,
require at least six fields, destructure
`[, type, lineStr, description, original, enhanced]` (further fields are
discarded by the destructuring), parse the line number and keep the
suggestion only when `0 <= lineNumber < lines.length`.  The constructed
range is `new Range(lineNumber, 0, lineNumber, ...)`, i.e. same-line. -/
def parseSuggestionLine (lines : List Str) (hookName line : Str) :
    Option Suggestion :=
  let parts := splitOnChar ':' line
  if parts.length ≥ 6 then
    match parseIntJS (parts.getD 2 []) with
    | some n =>
      if 0 ≤ n ∧ n < (lines.length : Int) then
        some { ty := parts.getD 1 []
               description := parts.getD 3 []
               original := parts.getD 4 []
               enhanced := parts.getD 5 []
               startLine := n.toNat
               endLine := n.toNat
               severity := getSeverityFromType (parts.getD 1 [])
               hookName := hookName }
      else none
    | none => none
  else none

/-- `GitHookManager.parseHookOutput`: keep the output lines starting with the
literal `SUGGESTION:` marker and parse each one, ignoring malformed lines
individually. -/
def parseHookOutput (output content : Str) (hookName : Str) : List Suggestion :=
  let lines := splitOnChar '\n' content
  let suggestionLines := (splitOnChar '\n' output).filter
    (fun line => startsWithList ("SUGGESTION:".toList) line)
  suggestionLines.filterMap (parseSuggestionLine lines hookName)

/-- Outcome of one hook subprocess invocation as seen by the caller of
`runSingleHook`: the promise either resolves with parsed suggestions or
rejects. -/
inductive HookRunOutcome where
  | ok (suggestions : List Suggestion)
  | error
deriving DecidableEq, Repr

/-- The `close` handler of `GitHookManager.runSingleHook`: a non-zero exit
code always rejects; exit code `0` resolves with the parsed suggestions. -/
def runSingleHookClose (hookName content : Str) (code : Int) (output : Str) :
    HookRunOutcome :=
  if code ≠ 0 then .error
  else .ok (parseHookOutput output content hookName)

/-- The source `runSingleHook` awaits the subprocess `close` event with no
timer: neither the configured `timeoutSeconds` (present in
`HookConfiguration` but read nowhere in `GitHookManager`) nor the elapsed
running time of the subprocess is consulted anywhere in the function.  This
wrapper makes those two quantities explicit inputs of the invocation so that
their (non-)influence on the outcome can be stated. -/
def runSingleHookTimed (timeoutSeconds elapsedSeconds : Nat)
    (hookName content : Str) (code : Int) (output : Str) : HookRunOutcome :=
  runSingleHookClose hookName content code output

/-- Loop body of `applyAllSuggestions`: `lines[lineIndex] = enhanced` guarded
by `lineIndex >= 0 && lineIndex < lines.length` (the array length never
changes, element assignment replaces in place). -/
def setStep (ls : List Str) (s : Suggestion) : List Str :=
  if s.startLine < ls.length then ls.set s.startLine s.enhanced else ls

/-- `GitHookManager.applyAllSuggestions`: split once, sort the suggestions by
start line in reverse order (stable), assign each suggestion's `enhanced`
text to its line, join once. -/
def applyAllSuggestions (content : Str) (suggestions : List Suggestion) : Str :=
  joinWith '\n'
    ((sortByKeyDesc (fun s => s.startLine) suggestions).foldl setStep
      (splitOnChar '\n' content))

/-- Loop body of `acceptChanges`: re-split the current content, splice
`endLine - startLine + 1` lines at `startLine` replacing them with the single
`enhanced` string, re-join.  (`vscode.Range` guarantees `startLine ≤ endLine`,
so the truncated `Nat` subtraction agrees with the source arithmetic.) -/
def spliceStep (content : Str) (change : Suggestion) : Str :=
  joinWith '\n'
    (splice (splitOnChar '\n' content) change.startLine
      (change.endLine - change.startLine + 1) [change.enhanced])

/-- The content computation of `GitHookManager.acceptChanges`: sort the
changes by start line in reverse order (stable), then fold the splice step
over them. -/
def acceptChangesContent (content : Str) (changes : List Suggestion) : Str :=
  (sortByKeyDesc (fun s => s.startLine) changes).foldl spliceStep content

/-- Filesystem state visible to the apply operations: the target file's
content, the backup copies that exist, and how many times the target file
has been written. -/
structure FsState where
  fileContent : Str
  backups : List Str
  writes : Nat
deriving DecidableEq, Repr

/-- How `acceptChanges` terminates: normally, or through its `catch` block
(which shows an error message and rethrows). -/
inductive AcceptOutcome where
  | ok
  | error
deriving DecidableEq, Repr

/-- `GitHookManager.acceptChanges` at the file-system level: read the file,
compute the new content in memory, then — only when
`config.backupOriginalFiles` is set — copy the file to a backup path, and
finally write the new content.  `copySucceeds` is the outcome of
`fs.copyFileSync`; when it throws, the `catch` block reports an error and
the write never executes. -/
def acceptChanges (backupOriginalFiles copySucceeds : Bool) (st : FsState)
    (changes : List Suggestion) : FsState × AcceptOutcome :=
  let content := acceptChangesContent st.fileContent changes
  if backupOriginalFiles then
    if copySucceeds then
      ({ fileContent := content
         backups := st.backups ++ [st.fileContent]
         writes := st.writes + 1 }, .ok)
    else (st, .error)
  else ({ st with fileContent := content, writes := st.writes + 1 }, .ok)

/-- Status union of `HookResult.status` (`'success' | 'error' | 'skipped'`). -/
inductive HookStatus where
  | success
  | error
  | skipped
deriving DecidableEq, Repr

/-- The `message` strings of the source, modelled as tagged values: the
source builds them by string interpolation (for the size it calls
`formatFileSize`, a floating-point log/pow computation), but only their
identity matters to the pipeline. -/
inductive HookMessage where
  | fileTooLarge (size : Nat)
  | analyzeError
  | hookFailed
  | foundSuggestions (n : Nat)
deriving DecidableEq, Repr

/-- The `HookResult` record (`executionTime`, a wall-clock measurement, is
omitted). -/
structure HookResult where
  hookName : Str
  status : HookStatus
  message : HookMessage
  suggestions : List Suggestion
deriving DecidableEq, Repr

/-- Status union of `FileAnalysisResult.status`. -/
inductive FileStatus where
  | needs_enhancement
  | enhanced
  | error
  | skipped
deriving DecidableEq, Repr

/-- The `FileAnalysisResult` record (`filePath`/`fileName` are bookkeeping
strings not involved in any claim). -/
structure FileAnalysisResult where
  status : FileStatus
  suggestions : List Suggestion
  originalContent : Str
  enhancedContent : Option Str
  hookResults : List HookResult
deriving DecidableEq, Repr

/-- Behaviour of one enabled hook for one file: the script file may be
missing (`fs.existsSync` fails, the promise rejects before spawning), or the
subprocess runs and closes with an exit code and captured stdout. -/
inductive HookRun where
  | missing (name : Str)
  | ran (name : Str) (code : Int) (output : Str)
deriving DecidableEq, Repr

/-- One iteration of the `analyzeFile` hook loop: a resolved `runSingleHook`
yields a `success` entry carrying the parsed suggestions, a rejected one is
caught and recorded as an `error` entry with no suggestions. -/
def runHookStep (content : Str) (hr : HookRun) : HookResult :=
  match hr with
  | .missing name => ⟨name, .error, .hookFailed, []⟩
  | .ran name code output =>
    match runSingleHookClose name content code output with
    | .ok suggs => ⟨name, .success, .foundSuggestions suggs.length, suggs⟩
    | .error => ⟨name, .error, .hookFailed, []⟩

/-- Per-file input of `analyzeFiles`: the `fs.statSync` outcome (`none`
models a throw), whether `fs.readFileSync` succeeds, the file content, and
one `HookRun` per enabled hook in `config.enabledHooks` order. -/
structure FileSpec where
  statSize : Option Nat
  readOk : Bool
  content : Str
  hookRuns : List HookRun
deriving DecidableEq, Repr

/-- The slice of `HookConfiguration` the analysis pipeline reads. -/
structure Config where
  maxFileSize : Nat
deriving DecidableEq, Repr

/-- The catch-all error entry `analyzeFiles` pushes when reading or analyzing
a file throws. -/
def systemErrorResult : FileAnalysisResult :=
  { status := .error
    suggestions := []
    originalContent := []
    enhancedContent := none
    hookResults := [⟨"system".toList, .error, .analyzeError, []⟩] }

/-- The skip entry `analyzeFiles` pushes for an oversized file. -/
def tooLargeResult (size : Nat) : FileAnalysisResult :=
  { status := .skipped
    suggestions := []
    originalContent := []
    enhancedContent := none
    hookResults := [⟨"system".toList, .skipped, .fileTooLarge size, []⟩] }

/-- `GitHookManager.analyzeFile`: run every enabled hook (each failure caught
per hook), concatenate the suggestions of successful hooks, and compute the
enhanced content only when there is at least one suggestion. -/
def analyzeFileContents (content : Str) (hookRuns : List HookRun) :
    FileAnalysisResult :=
  let hookResults := hookRuns.map (runHookStep content)
  let allSuggestions := (hookResults.map (fun r => r.suggestions)).flatten
  { status := if allSuggestions.length > 0 then .needs_enhancement else .enhanced
    suggestions := allSuggestions
    originalContent := content
    enhancedContent :=
      if allSuggestions.length > 0 then
        some (applyAllSuggestions content allSuggestions)
      else none
    hookResults := hookResults }

/-- Loop body of `GitHookManager.analyzeFiles` for one file: stat the file
(a throw is caught and recorded as an error entry), short-circuit oversized
files to a skip entry before any hook runs, read the content (a throw is
caught likewise), then analyze. -/
def analyzeOneFile (cfg : Config) (f : FileSpec) : FileAnalysisResult :=
  match f.statSize with
  | none => systemErrorResult
  | some size =>
    if size > cfg.maxFileSize then tooLargeResult size
    else if f.readOk then analyzeFileContents f.content f.hookRuns
    else systemErrorResult

/-- `GitHookManager.analyzeFiles`: one result entry per input file, in input
order; every per-file failure is caught inside the loop body, so the loop
always runs to completion. -/
def analyzeFiles (cfg : Config) (files : List FileSpec) :
    List FileAnalysisResult :=
  files.map (analyzeOneFile cfg)

/-! Shell framework (`interactive-hook-framework.sh`). -/

/-- `get_user_choice` of the shell framework: `read -t timeout` either
delivers a line within the timeout (`some s`, where an empty line is
replaced by the default via `${choice:-default}`) or times out (`none`), in
which case the default is used. -/
def get_user_choice (dflt : Str) (timeoutSecs : Nat) (input : Option Str) :
    Str :=
  match input with
  | none => dflt
  | some s => if s = [] then dflt else s

/-- Bash `${choice,,}` lowercasing. -/
def lowercase (s : Str) : Str :=
  s.map Char.toLower

/-- Per-file outcome of the `interactive_mode` `case` statement. -/
inductive Decision where
  | applied
  | skipped
  | quitRun
deriving DecidableEq, Repr

/-- The per-file decision of `interactive_mode`: the first prompt defaults to
`s` with a 30-second timeout; `a`/`apply` applies, `v`/`view` previews and
re-asks with a 15-second timeout defaulting to `s`, `q`/`quit` stops the
loop, and anything else (including the default) skips the file.
`Decision.applied` records that the apply branch ran (when
`apply_enhancement` is undefined that branch prints an error instead, but
the chosen branch is the same). -/
def decideFile (input1 input2 : Option Str) : Decision :=
  let choice := lowercase (get_user_choice ("s".toList) 30 input1)
  if choice = "a".toList ∨ choice = "apply".toList then .applied
  else if choice = "v".toList ∨ choice = "view".toList then
    let c2 := lowercase (get_user_choice ("s".toList) 15 input2)
    if c2 = "a".toList ∨ c2 = "apply".toList then .applied else .skipped
  else if choice = "q".toList ∨ choice = "quit".toList then .quitRun
  else .skipped

/-- `create_backup` of the shell framework: `cp "$file" "$backup" || true` —
a failed copy is silently ignored and the function still reports the backup
path. -/
def create_backup (copySucceeds : Bool) (st : FsState) : FsState :=
  if copySucceeds then { st with backups := st.backups ++ [st.fileContent] }
  else st

/-- `apply_changes` of the shell framework: take a backup (whose failure is
swallowed by `create_backup`), then unconditionally overwrite the file with
`echo "$new_content" > "$file"` (note `echo` appends a newline). -/
def apply_changes (copySucceeds : Bool) (st : FsState) (new_content : Str) :
    FsState :=
  let st1 := create_backup copySucceeds st
  { st1 with fileContent := new_content ++ ['\n'], writes := st1.writes + 1 }

/-! Lemmas about the apply fold. -/

/-- The replacement text of the last suggestion in `t` targeting line `j`,
if any: with a left fold of in-place line assignments, the last assignment
to a line wins. -/
def lastEnh (j : Nat) : List Suggestion → Option Str
  | [] => none
  | s :: t =>
    match lastEnh j t with
    | some v => some v
    | none => if s.startLine = j then some s.enhanced else none

/-! Lemmas. -/

theorem splitOnChar_cons (sep c : Char) (rest : Str) :
    splitOnChar sep (c :: rest) =
      match splitOnChar sep rest with
      | [] => [[c]]
      | piece :: pieces =>
        if c = sep then [] :: piece :: pieces else (c :: piece) :: pieces := rfl

theorem splitOnChar_ne_nil (sep : Char) (s : Str) : splitOnChar sep s ≠ [] := by
  induction s with
  | nil => simp [splitOnChar]
  | cons c rest ih =>
    simp only [splitOnChar]
    cases h : splitOnChar sep rest with
    | nil => simp
    | cons piece pieces =>
      by_cases hc : c = sep <;> simp [hc]

theorem not_mem_of_mem_splitOnChar (sep : Char) (s piece : Str)
    (hp : piece ∈ splitOnChar sep s) : sep ∉ piece := by
  induction s generalizing piece with
  | nil =>
    simp [splitOnChar] at hp
    simp [hp]
  | cons c rest ih =>
    simp only [splitOnChar] at hp
    cases h : splitOnChar sep rest with
    | nil => exact absurd h (splitOnChar_ne_nil sep rest)
    | cons q qs =>
      rw [h] at hp
      by_cases hc : c = sep
      · simp [hc] at hp
        rcases hp with hp | hp | hp
        · simp [hp]
        · subst hp
          exact ih piece (by rw [h]; exact List.mem_cons_self piece qs)
        · exact ih piece (by rw [h]; exact List.mem_cons_of_mem q hp)
      · simp [hc] at hp
        rcases hp with hp | hp
        · subst hp
          intro hmem
          rcases List.mem_cons.mp hmem with h1 | h1
          · exact hc h1.symm
          · exact ih q (by rw [h]; exact List.mem_cons_self q qs) h1
        · exact ih piece (by rw [h]; exact List.mem_cons_of_mem q hp)

theorem joinWith_splitOnChar (sep : Char) (s : Str) :
    joinWith sep (splitOnChar sep s) = s := by
  induction s with
  | nil => simp [splitOnChar, joinWith]
  | cons c rest ih =>
    simp only [splitOnChar]
    cases h : splitOnChar sep rest with
    | nil => exact absurd h (splitOnChar_ne_nil sep rest)
    | cons piece pieces =>
      rw [h] at ih
      by_cases hc : c = sep
      · subst hc
        simp only [if_pos rfl]
        cases pieces with
        | nil => simpa [joinWith] using congrArg (c :: ·) ih
        | cons p2 ps => simpa [joinWith] using congrArg (c :: ·) ih
      · simp only [if_neg hc]
        cases pieces with
        | nil => simpa [joinWith] using congrArg (c :: ·) ih
        | cons p2 ps => simpa [joinWith] using congrArg (c :: ·) ih

theorem splitOnChar_append_of_not_mem (sep : Char) (a b : Str) (ha : sep ∉ a) :
    splitOnChar sep (a ++ b) =
      (a ++ (splitOnChar sep b).headI) :: (splitOnChar sep b).tail := by
  induction a with
  | nil =>
    simp only [List.nil_append]
    cases h : splitOnChar sep b with
    | nil => exact absurd h (splitOnChar_ne_nil sep b)
    | cons piece pieces => simp
  | cons c a ih =>
    have hc : c ≠ sep := fun h => ha (h ▸ List.mem_cons_self c a)
    have ha2 : sep ∉ a := fun h => ha (List.mem_cons_of_mem c h)
    rw [List.cons_append, splitOnChar_cons, ih ha2]
    simp [hc]

theorem splitOnChar_singleton_of_not_mem (sep : Char) (a : Str) (ha : sep ∉ a) :
    splitOnChar sep a = [a] := by
  have := splitOnChar_append_of_not_mem sep a [] ha
  simpa [splitOnChar] using this

theorem splitOnChar_joinWith (sep : Char) (ps : List Str) (hne : ps ≠ [])
    (h : ∀ p ∈ ps, sep ∉ p) : splitOnChar sep (joinWith sep ps) = ps := by
  induction ps with
  | nil => exact absurd rfl hne
  | cons p ps ih =>
    cases ps with
    | nil =>
      simpa [joinWith] using
        splitOnChar_singleton_of_not_mem sep p (h p (List.mem_cons_self p []))
    | cons p2 ps2 =>
      have hp : sep ∉ p := h p (List.mem_cons_self p _)
      have hrest : ∀ q ∈ p2 :: ps2, sep ∉ q := fun q hq =>
        h q (List.mem_cons_of_mem p hq)
      have ihr := ih (by simp) hrest
      show splitOnChar sep (p ++ sep :: joinWith sep (p2 :: ps2)) = _
      rw [splitOnChar_append_of_not_mem sep p _ hp]
      have : splitOnChar sep (sep :: joinWith sep (p2 :: ps2)) =
          [] :: splitOnChar sep (joinWith sep (p2 :: ps2)) := by
        simp only [splitOnChar]
        cases hs : splitOnChar sep (joinWith sep (p2 :: ps2)) with
        | nil => exact absurd hs (splitOnChar_ne_nil sep _)
        | cons q qs => simp
      rw [this, ihr]
      simp

theorem splice_one_eq_set {α : Type} (l : List α) (i : Nat) (v : α)
    (h : i < l.length) : splice l i 1 [v] = l.set i v := by
  induction l generalizing i with
  | nil => simp at h
  | cons c l ih =>
    cases i with
    | zero => simp [splice]
    | succ j =>
      have hj : j < l.length := by simpa using h
      have := ih j hj
      simp only [splice] at this ⊢
      simp [List.set, this]

theorem getq_set_self {α : Type} (l : List α) (i : Nat) (v : α)
    (h : i < l.length) : (l.set i v).get? i = some v := by
  induction l generalizing i with
  | nil => simp at h
  | cons c l ih =>
    cases i with
    | zero => simp
    | succ j => simpa using ih j (by simpa using h)

theorem getq_set_other {α : Type} (l : List α) (i j : Nat) (v : α)
    (h : i ≠ j) : (l.set i v).get? j = l.get? j := by
  induction l generalizing i j with
  | nil => simp
  | cons c l ih =>
    cases i with
    | zero =>
      cases j with
      | zero => exact absurd rfl h
      | succ j2 => simp
    | succ i2 =>
      cases j with
      | zero => simp
      | succ j2 => simpa using ih i2 j2 (fun hc => h (by rw [hc]))

theorem set_set_same {α : Type} (l : List α) (i : Nat) (a b : α) :
    (l.set i a).set i b = l.set i b := by
  induction l generalizing i with
  | nil => simp
  | cons c l ih =>
    cases i with
    | zero => simp
    | succ j => simp [ih j]

theorem mem_of_mem_set {α : Type} (l : List α) (i : Nat) (v x : α)
    (hx : x ∈ l.set i v) : x ∈ l ∨ x = v := by
  induction l generalizing i with
  | nil => simp at hx
  | cons c l ih =>
    cases i with
    | zero =>
      rcases List.mem_cons.mp hx with h | h
      · exact Or.inr h
      · exact Or.inl (List.mem_cons_of_mem c h)
    | succ j =>
      rcases List.mem_cons.mp hx with h | h
      · exact Or.inl (h ▸ List.mem_cons_self c l)
      · rcases ih j h with h2 | h2
        · exact Or.inl (List.mem_cons_of_mem c h2)
        · exact Or.inr h2

theorem list_ext_getq {α : Type} (l₁ l₂ : List α)
    (h : ∀ n, l₁.get? n = l₂.get? n) : l₁ = l₂ := by
  induction l₁ generalizing l₂ with
  | nil =>
    cases l₂ with
    | nil => rfl
    | cons c l => simpa using h 0
  | cons c l ih =>
    cases l₂ with
    | nil => simpa using h 0
    | cons c2 l2 =>
      have h0 := h 0
      simp at h0
      rw [h0, ih l2 (fun n => by simpa using h (n + 1))]

theorem mem_insertDescBy {α : Type} (key : α → Nat) (x a : α) (l : List α) :
    a ∈ insertDescBy key x l ↔ a = x ∨ a ∈ l := by
  induction l with
  | nil => simp [insertDescBy]
  | cons y ys ih =>
    simp only [insertDescBy]
    by_cases h : key x < key y
    · simp [h, ih]
      tauto
    · simp [h]

theorem mem_sortByKeyDesc {α : Type} (key : α → Nat) (a : α) (l : List α) :
    a ∈ sortByKeyDesc key l ↔ a ∈ l := by
  induction l with
  | nil => simp [sortByKeyDesc]
  | cons x xs ih =>
    simp [sortByKeyDesc, mem_insertDescBy, ih]

theorem getq_eq_none_of_len_le {α : Type} (l : List α) (n : Nat)
    (h : l.length ≤ n) : l.get? n = none := by
  induction l generalizing n with
  | nil => simp
  | cons c l ih =>
    cases n with
    | zero => simp at h
    | succ m => simpa using ih m (by simpa using h)

theorem length_setStep (ls : List Str) (s : Suggestion) :
    (setStep ls s).length = ls.length := by
  unfold setStep
  split <;> simp

theorem setStep_ne_nil (ls : List Str) (s : Suggestion) (h : ls ≠ []) :
    setStep ls s ≠ [] := by
  intro hc
  apply h
  have := length_setStep ls s
  rw [hc] at this
  exact List.length_eq_zero.mp this.symm

theorem length_foldl_setStep (t : List Suggestion) (ls : List Str) :
    (List.foldl setStep ls t).length = ls.length := by
  induction t generalizing ls with
  | nil => rfl
  | cons s t ih =>
    rw [List.foldl_cons, ih (setStep ls s), length_setStep]

theorem getq_foldl_setStep (t : List Suggestion) (ls : List Str) (j : Nat) :
    (List.foldl setStep ls t).get? j =
      match lastEnh j t with
      | some v => if j < ls.length then some v else none
      | none => ls.get? j := by
  induction t generalizing ls with
  | nil => cases h : lastEnh j ([] : List Suggestion) <;> simp_all [lastEnh]
  | cons s t ih =>
    rw [List.foldl_cons, ih (setStep ls s), length_setStep]
    cases h : lastEnh j t with
    | some v => simp [lastEnh, h]
    | none =>
      simp only [lastEnh, h]
      by_cases hs : s.startLine = j
      · subst hs
        unfold setStep
        by_cases hl : s.startLine < ls.length
        · simp [hl, getq_set_self ls s.startLine s.enhanced hl]
        · simp [hl]
          omega
      · unfold setStep
        by_cases hl : s.startLine < ls.length
        · simp [hs, hl, getq_set_other ls s.startLine j s.enhanced hs]
        · simp [hs, hl]

theorem foldl_setStep_idem (t : List Suggestion) (ls : List Str) :
    List.foldl setStep (List.foldl setStep ls t) t = List.foldl setStep ls t := by
  apply list_ext_getq
  intro n
  rw [getq_foldl_setStep, getq_foldl_setStep]
  cases h : lastEnh n t with
  | some v => simp [length_foldl_setStep]
  | none => simp

theorem mem_foldl_setStep (t : List Suggestion) (ls : List Str) (x : Str)
    (hx : x ∈ List.foldl setStep ls t) :
    x ∈ ls ∨ ∃ s ∈ t, x = s.enhanced := by
  induction t generalizing ls with
  | nil => exact Or.inl hx
  | cons s t ih =>
    rw [List.foldl_cons] at hx
    rcases ih (setStep ls s) hx with h | ⟨s2, hs2, he⟩
    · unfold setStep at h
      by_cases hl : s.startLine < ls.length
      · rw [if_pos hl] at h
        rcases mem_of_mem_set ls s.startLine s.enhanced x h with h2 | h2
        · exact Or.inl h2
        · exact Or.inr ⟨s, List.mem_cons_self s t, h2⟩
      · rw [if_neg hl] at h
        exact Or.inl h
    · exact Or.inr ⟨s2, List.mem_cons_of_mem s hs2, he⟩

/-- Re-splitting then splicing one line (the `acceptChanges` loop body) agrees
with in-place line assignment (the `applyAllSuggestions` loop body) as long as
every suggestion has a same-line range, an in-bounds start line, and a
newline-free replacement. -/
theorem foldl_spliceStep_eq (t : List Suggestion) (ls : List Str)
    (hne : ls ≠ []) (hnl : ∀ p ∈ ls, '\n' ∉ p)
    (hIn : ∀ s ∈ t,
      s.endLine = s.startLine ∧ s.startLine < ls.length ∧ '\n' ∉ s.enhanced) :
    List.foldl spliceStep (joinWith '\n' ls) t =
      joinWith '\n' (List.foldl setStep ls t) := by
  induction t generalizing ls with
  | nil => rfl
  | cons s t ih =>
    obtain ⟨he, hb, hn⟩ := hIn s (List.mem_cons_self s t)
    have step : spliceStep (joinWith '\n' ls) s = joinWith '\n' (setStep ls s) := by
      unfold spliceStep
      rw [splitOnChar_joinWith '\n' ls hne hnl, he, Nat.sub_self, Nat.zero_add,
        splice_one_eq_set ls s.startLine s.enhanced hb]
      unfold setStep
      rw [if_pos hb]
    rw [List.foldl_cons, step, List.foldl_cons]
    apply ih (setStep ls s) (setStep_ne_nil ls s hne)
    · intro p hp
      unfold setStep at hp
      by_cases hl : s.startLine < ls.length
      · rw [if_pos hl] at hp
        rcases mem_of_mem_set ls s.startLine s.enhanced p hp with h2 | h2
        · exact hnl p h2
        · rw [h2]; exact hn
      · rw [if_neg hl] at hp
        exact hnl p hp
    · intro s2 hs2
      rw [length_setStep]
      exact hIn s2 (List.mem_cons_of_mem s hs2)

theorem setStep_setStep_same (L : List Str) (s1 s2 : Suggestion)
    (h : s1.startLine = s2.startLine) : setStep (setStep L s1) s2 = setStep L s2 := by
  unfold setStep
  by_cases hl : s2.startLine < L.length
  · rw [h]
    simp [hl, set_set_same, length_setStep]
  · rw [h]
    simp [hl]

/-! Claim theorems. -/

/-- C1, counterexample: in the shell framework's `apply_changes`, a failed
backup copy (`cp ... || true`) is ignored and the target file is replaced
anyway — the pre-mutation content `old` is overwritten by `new` plus the
`echo` newline while no backup exists, and the operation is not reported as
an error, contradicting the claim that a failed backup prevents the
replacement and leaves the file unmodified. -/
theorem C1_counterexample :
    apply_changes false ⟨"old".toList, [], 0⟩ ("new".toList) =
      ⟨"new\n".toList, [], 1⟩ ∧
    "new\n".toList ≠ "old".toList := by
  constructor
  · rfl
  · decide

/-- C1, amended: in the VS Code `acceptChanges` path, when
`backupOriginalFiles` is enabled, a failed backup copy aborts the operation
with an error and the file keeps its content, and a successful backup
records the pre-mutation content before the write; when the flag is
disabled the file is replaced with no backup at all; in the shell
`apply_changes` path a failed backup is ignored and the replacement proceeds
regardless. -/
theorem C1_amended (st : FsState) (changes : List Suggestion) (newContent : Str) :
    acceptChanges true false st changes = (st, AcceptOutcome.error) ∧
    acceptChanges true true st changes =
      (⟨acceptChangesContent st.fileContent changes,
        st.backups ++ [st.fileContent], st.writes + 1⟩, AcceptOutcome.ok) ∧
    acceptChanges false true st changes =
      (⟨acceptChangesContent st.fileContent changes,
        st.backups, st.writes + 1⟩, AcceptOutcome.ok) ∧
    apply_changes false st newContent =
      ⟨newContent ++ ['\n'], st.backups, st.writes + 1⟩ :=
  ⟨rfl, rfl, rfl, rfl⟩

/-- C2, counterexample: an analyzer invocation whose elapsed time (3600 s)
far exceeds the configured `timeoutSeconds` (the default 30) still resolves
from the exit code and output alone — here with outcome `ok` and one parsed
suggestion, not a timeout outcome with zero suggestions, because the source
enforces no timeout at all. -/
theorem C2_counterexample :
    runSingleHookTimed 30 3600 ("quality".toList) ("x".toList) 0
        ("SUGGESTION:quality:0:add docs:x:y".toList) =
      HookRunOutcome.ok
        [⟨"quality".toList, "add docs".toList, "x".toList, "y".toList,
          0, 0, Severity.warning, "quality".toList⟩] ∧
    (30 : Nat) < 3600 := by
  constructor
  · decide
  · decide

/-- C2, amended: no timeout is enforced on analyzer subprocess invocations:
the outcome is a function of the exit code and captured output only,
independent of the configured `timeoutSeconds` and of how long the
subprocess ran; exit code 0 resolves with the parsed suggestions and any
non-zero exit code rejects, so the invocation resolves only when the
subprocess closes. -/
theorem C2_amended (t1 e1 t2 e2 : Nat) (name content output : Str) (code : Int) :
    runSingleHookTimed t1 e1 name content code output =
      runSingleHookTimed t2 e2 name content code output ∧
    runSingleHookTimed t1 e1 name content 0 output =
      HookRunOutcome.ok (parseHookOutput output content name) ∧
    (code ≠ 0 → runSingleHookTimed t1 e1 name content code output =
      HookRunOutcome.error) := by
  refine ⟨rfl, rfl, fun h => ?_⟩
  simp [runSingleHookTimed, runSingleHookClose, h]

/-- C2, witness for the amended theorem at a concrete input. -/
theorem C2_witness :
    ((1 : Int) ≠ 0) ∧
    runSingleHookTimed 30 9999 ("q".toList) ("x".toList) 1 ("out".toList) =
      HookRunOutcome.error :=
  ⟨by decide,
    (C2_amended 30 9999 0 0 ("q".toList) ("x".toList) ("out".toList) 1).2.2
      (by decide)⟩

/-- C3, counterexample: a stale suggestion — its `originalText` `ZZZ` does
not match line 0 of the current content `abc` — is not dropped by
`acceptChanges`: the splice applies it anyway and the file content becomes
`new` instead of staying `abc`, contradicting the claimed re-validation. -/
theorem C3_counterexample :
    (splitOnChar '\n' ("abc".toList)).get? 0 ≠ some ("ZZZ".toList) ∧
    acceptChangesContent ("abc".toList)
        [⟨[], [], "ZZZ".toList, "new".toList, 0, 0, Severity.info, []⟩] =
      "new".toList ∧
    "new".toList ≠ "abc".toList := by
  refine ⟨by decide, by decide, by decide⟩

/-- C3, amended: no re-validation of `originalText` against the current
buffer happens before splicing: `acceptChanges` applies every suggestion of
the batch via the splice step even when the text at its `lineRange` does not
match its `originalText` (stale suggestions are applied, not dropped;
`applyAllSuggestions` ignores only suggestions whose start line is beyond
the buffer's line count). -/
theorem C3_amended (c : Str) (s : Suggestion)
    (h : (splitOnChar '\n' c).get? s.startLine ≠ some s.original) :
    acceptChangesContent c [s] = spliceStep c s := rfl

/-- C3, witness for the amended theorem at a concrete stale input. -/
theorem C3_witness :
    acceptChangesContent ("abc".toList)
        [⟨[], [], "ZZZ".toList, "new".toList, 0, 0, Severity.info, []⟩] =
      spliceStep ("abc".toList)
        ⟨[], [], "ZZZ".toList, "new".toList, 0, 0, Severity.info, []⟩ :=
  C3_amended ("abc".toList)
    ⟨[], [], "ZZZ".toList, "new".toList, 0, 0, Severity.info, []⟩ (by decide)

/-- C4, counterexample: applying the same suggestion set twice is not the
same as applying it once when a replacement text contains a newline (the
second run re-splits the expanded text and duplicates it), and the engine
writes the file even when the computed content is byte-identical to the
input (here a suggestion whose replacement already equals the current line
leaves the content unchanged, yet the write counter increases). -/
theorem C4_counterexample :
    applyAllSuggestions
        (applyAllSuggestions ("a\nb".toList)
          [⟨[], [], "a".toList, "x\ny".toList, 0, 0, Severity.info, []⟩])
        [⟨[], [], "a".toList, "x\ny".toList, 0, 0, Severity.info, []⟩] ≠
      applyAllSuggestions ("a\nb".toList)
        [⟨[], [], "a".toList, "x\ny".toList, 0, 0, Severity.info, []⟩] ∧
    acceptChangesContent ("new".toList)
        [⟨[], [], "old".toList, "new".toList, 0, 0, Severity.info, []⟩] =
      "new".toList ∧
    (acceptChanges false true ⟨"new".toList, [], 0⟩
        [⟨[], [], "old".toList, "new".toList, 0, 0, Severity.info, []⟩]).1.writes
      = 1 := by
  refine ⟨by decide, by decide, by decide⟩

/-- C4, amended: when every replacement text is newline-free (the only shape
the suggestion parser produces), re-running `applyAllSuggestions` on its own
output is a no-op; the write itself is unconditional — `acceptChanges`
increments the write count even when the computed content is identical to
the input. -/
theorem C4_amended (c : Str) (ss : List Suggestion)
    (h : ∀ s ∈ ss, '\n' ∉ s.enhanced) :
    applyAllSuggestions (applyAllSuggestions c ss) ss =
      applyAllSuggestions c ss ∧
    ∀ st : FsState, (acceptChanges false true st ss).1.writes = st.writes + 1 ∧
      (acceptChanges true true st ss).1.writes = st.writes + 1 := by
  constructor
  · unfold applyAllSuggestions
    have hXne : List.foldl setStep (splitOnChar '\n' c)
        (sortByKeyDesc (fun s => s.startLine) ss) ≠ [] := by
      intro h0
      have hlen := length_foldl_setStep (sortByKeyDesc (fun s => s.startLine) ss)
        (splitOnChar '\n' c)
      rw [h0] at hlen
      exact splitOnChar_ne_nil '\n' c (List.length_eq_zero.mp hlen.symm)
    have hXnl : ∀ p ∈ List.foldl setStep (splitOnChar '\n' c)
        (sortByKeyDesc (fun s => s.startLine) ss), '\n' ∉ p := by
      intro p hp
      rcases mem_foldl_setStep _ _ p hp with h1 | ⟨s, hs, he⟩
      · exact not_mem_of_mem_splitOnChar '\n' c p h1
      · rw [he]
        exact h s ((mem_sortByKeyDesc (fun s => s.startLine) s ss).mp hs)
    rw [splitOnChar_joinWith '\n' _ hXne hXnl, foldl_setStep_idem]
  · intro st
    exact ⟨rfl, rfl⟩

/-- C4, witness for the amended theorem at a concrete input with a
newline-free replacement. -/
theorem C4_witness :
    applyAllSuggestions
        (applyAllSuggestions ("new".toList)
          [⟨[], [], "old".toList, "new".toList, 0, 0, Severity.info, []⟩])
        [⟨[], [], "old".toList, "new".toList, 0, 0, Severity.info, []⟩] =
      applyAllSuggestions ("new".toList)
        [⟨[], [], "old".toList, "new".toList, 0, 0, Severity.info, []⟩] ∧
    (acceptChanges false true ⟨"new".toList, [], 0⟩
        [⟨[], [], "old".toList, "new".toList, 0, 0, Severity.info, []⟩]).1.writes
      = 0 + 1 :=
  ⟨(C4_amended ("new".toList) _ (by decide)).1,
    ((C4_amended ("new".toList) _ (by decide)).2 ⟨"new".toList, [], 0⟩).1⟩

/-- C5, counterexample: two suggestions overlapping on line 0 — `A` listed
first, `B` second, equal start lines, so the stable sort keeps `A` first —
do not resolve to the first sorted suggestion: both assignments run and the
later one overwrites, so the result is `B`, not the `A` the claim predicts,
and nothing is dropped or reported. -/
theorem C5_counterexample :
    applyAllSuggestions ("x".toList)
        [⟨[], [], "x".toList, "A".toList, 0, 0, Severity.info, "h1".toList⟩,
         ⟨[], [], "x".toList, "B".toList, 0, 0, Severity.info, "h2".toList⟩] ≠
      applyAllSuggestions ("x".toList)
        [⟨[], [], "x".toList, "A".toList, 0, 0, Severity.info, "h1".toList⟩] ∧
    applyAllSuggestions ("x".toList)
        [⟨[], [], "x".toList, "A".toList, 0, 0, Severity.info, "h1".toList⟩,
         ⟨[], [], "x".toList, "B".toList, 0, 0, Severity.info, "h2".toList⟩] =
      "B".toList := by
  refine ⟨by decide, by decide⟩

/-- C5, amended: when two suggestions of a batch target the same start line,
both are applied in sorted order and the later one overwrites the earlier,
so the batch behaves as if only the last overlapping suggestion (in the
stable sorted order, i.e. the later-listed one on a tie) were applied; no
overlapping suggestion is dropped from processing or reported. -/
theorem C5_amended (c : Str) (s1 s2 : Suggestion)
    (h : s1.startLine = s2.startLine) :
    applyAllSuggestions c [s1, s2] = applyAllSuggestions c [s2] := by
  unfold applyAllSuggestions
  have hsort : sortByKeyDesc (fun s => s.startLine) [s1, s2] = [s1, s2] := by
    simp [sortByKeyDesc, insertDescBy, h]
  rw [hsort]
  simp only [sortByKeyDesc, insertDescBy, List.foldl_cons, List.foldl_nil]
  exact congrArg (joinWith '\n') (setStep_setStep_same _ s1 s2 h)

/-- C5, witness for the amended theorem at the concrete overlapping pair. -/
theorem C5_witness :
    applyAllSuggestions ("x".toList)
        [⟨[], [], "x".toList, "A".toList, 0, 0, Severity.info, "h1".toList⟩,
         ⟨[], [], "x".toList, "B".toList, 0, 0, Severity.info, "h2".toList⟩] =
      applyAllSuggestions ("x".toList)
        [⟨[], [], "x".toList, "B".toList, 0, 0, Severity.info, "h2".toList⟩] :=
  C5_amended ("x".toList)
    ⟨[], [], "x".toList, "A".toList, 0, 0, Severity.info, "h1".toList⟩
    ⟨[], [], "x".toList, "B".toList, 0, 0, Severity.info, "h2".toList⟩ rfl

/-- C6, counterexample: an analyzer exiting with code 1 whose output
contains one perfectly parseable SUGGESTION line is still rejected as an
error by the `close` handler — partial output is not honored, contradicting
the claim that such an invocation is treated as ok. -/
theorem C6_counterexample :
    runSingleHookClose ("quality".toList) ("x".toList) 1
        ("SUGGESTION:quality:0:d:x:y".toList) = HookRunOutcome.error ∧
    (parseHookOutput ("SUGGESTION:quality:0:d:x:y".toList) ("x".toList)
        ("quality".toList)).length = 1 := by
  refine ⟨by decide, by decide⟩

/-- C6, amended: every non-zero exit code of an analyzer yields an error
regardless of how many SUGGESTION lines parsed; only exit code 0 resolves,
with the parsed suggestions. -/
theorem C6_amended (name content output : Str) (code : Int) (h : code ≠ 0) :
    runSingleHookClose name content code output = HookRunOutcome.error ∧
    runSingleHookClose name content 0 output =
      HookRunOutcome.ok (parseHookOutput output content name) :=
  ⟨by simp [runSingleHookClose, h], rfl⟩

/-- C6, witness for the amended theorem at a concrete non-zero exit code. -/
theorem C6_witness :
    runSingleHookClose ("q".toList) ("x".toList) 2
        ("SUGGESTION:quality:0:d:x:y".toList) = HookRunOutcome.error ∧
    runSingleHookClose ("q".toList) ("x".toList) 0
        ("SUGGESTION:quality:0:d:x:y".toList) =
      HookRunOutcome.ok
        (parseHookOutput ("SUGGESTION:quality:0:d:x:y".toList) ("x".toList)
          ("q".toList)) :=
  C6_amended ("q".toList) ("x".toList)
    ("SUGGESTION:quality:0:d:x:y".toList) 2 (by decide)

/-- C7, confirmed: a file whose stat size exceeds `maxFileSize` is
short-circuited to a skipped entry with the too-large reason — independently
of its content and configured hook runs, so no analyzer is invoked for it —
while the files before and after it in the batch are processed normally. -/
theorem C7_too_large (cfg : Config) (pre post : List FileSpec) (f : FileSpec)
    (size : Nat) (hstat : f.statSize = some size)
    (hbig : size > cfg.maxFileSize) :
    analyzeFiles cfg (pre ++ f :: post) =
      analyzeFiles cfg pre ++ tooLargeResult size :: analyzeFiles cfg post ∧
    (tooLargeResult size).status = FileStatus.skipped := by
  constructor
  · unfold analyzeFiles
    rw [List.map_append, List.map_cons]
    have hf : analyzeOneFile cfg f = tooLargeResult size := by
      unfold analyzeOneFile
      rw [hstat]
      simp [hbig]
    rw [hf]
  · rfl

/-- C7, witness: a 2-byte limit, an oversized 3-byte file with a configured
hook run, and a small file after it. -/
theorem C7_witness :
    analyzeFiles ⟨2⟩
        [⟨some 3, true, "abc".toList, [HookRun.ran ("q".toList) 0 []]⟩,
         ⟨some 1, true, "a".toList, []⟩] =
      tooLargeResult 3 ::
        analyzeFiles ⟨2⟩ [⟨some 1, true, "a".toList, []⟩] ∧
    (tooLargeResult 3).status = FileStatus.skipped :=
  C7_too_large ⟨2⟩ []
    [⟨some 1, true, "a".toList, []⟩]
    ⟨some 3, true, "abc".toList, [HookRun.ran ("q".toList) 0 []]⟩ 3 rfl
    (by decide)

/-- C8, confirmed: the batch analysis is failure-isolated per file: the
result list always decomposes around any file as one entry per file (the
loop never aborts), a file whose stat or read throws yields the system
error entry with status error, a hook subprocess failure is recorded as an
error entry among that file's hook results, and the hook results of a file
are exactly the per-hook outcomes in order. -/
theorem C8_isolation (cfg : Config) (pre post : List FileSpec) (f : FileSpec) :
    analyzeFiles cfg (pre ++ f :: post) =
      analyzeFiles cfg pre ++ analyzeOneFile cfg f :: analyzeFiles cfg post ∧
    (f.statSize = none → analyzeOneFile cfg f = systemErrorResult) ∧
    (∀ size, f.statSize = some size → size ≤ cfg.maxFileSize →
      f.readOk = false → analyzeOneFile cfg f = systemErrorResult) ∧
    systemErrorResult.status = FileStatus.error ∧
    (∀ content name code output, code ≠ 0 →
      runHookStep content (HookRun.ran name code output) =
        ⟨name, HookStatus.error, HookMessage.hookFailed, []⟩) ∧
    (∀ content hookRuns,
      (analyzeFileContents content hookRuns).hookResults =
        hookRuns.map (runHookStep content)) := by
  refine ⟨?_, ?_, ?_, rfl, ?_, ?_⟩
  · unfold analyzeFiles
    rw [List.map_append, List.map_cons]
  · intro hs
    unfold analyzeOneFile
    rw [hs]
  · intro size hs hle hro
    unfold analyzeOneFile
    rw [hs]
    simp [Nat.not_lt.mpr hle, hro]
  · intro content name code output h
    unfold runHookStep runSingleHookClose
    simp [h]
  · intro content hookRuns
    rfl

/-- C8, witness: a batch of three files whose middle file's stat throws is
processed completely, with the middle entry recorded as the system error. -/
theorem C8_witness :
    analyzeFiles ⟨10⟩
        ([⟨some 1, true, "a".toList, []⟩] ++ ⟨none, true, [], []⟩ ::
          [⟨some 2, true, "b".toList, []⟩]) =
      analyzeFiles ⟨10⟩ [⟨some 1, true, "a".toList, []⟩] ++
        systemErrorResult :: analyzeFiles ⟨10⟩ [⟨some 2, true, "b".toList, []⟩] := by
  have H := C8_isolation ⟨10⟩ [⟨some 1, true, "a".toList, []⟩]
    [⟨some 2, true, "b".toList, []⟩] ⟨none, true, [], []⟩
  rw [H.1, H.2.1 rfl]

/-- C9, confirmed: a timed-out `read` in `get_user_choice` resolves to the
supplied default (so does an empty input line), and in the per-file prompt
of `interactive_mode` — default `s` — a timeout therefore resolves the
decision to skipping the file, regardless of what a later prompt would
read: no hang and no error. -/
theorem C9_timeout_default (d : Str) (t : Nat) (i2 : Option Str) :
    get_user_choice d t none = d ∧
    decideFile none i2 = Decision.skipped ∧
    decideFile (some []) i2 = Decision.skipped :=
  ⟨rfl, rfl, rfl⟩

/-- C10, counterexample: for a same-line suggestion whose start line (5)
lies beyond the one-line content `a`, the in-memory preview
(`applyAllSuggestions`) skips it and leaves `a`, while the apply path
(`acceptChanges`) splices it, appending a line — the preview and the
written content disagree. -/
theorem C10_counterexample :
    acceptChangesContent ("a".toList)
        [⟨[], [], "a".toList, "x".toList, 5, 5, Severity.info, []⟩] =
      "a\nx".toList ∧
    applyAllSuggestions ("a".toList)
        [⟨[], [], "a".toList, "x".toList, 5, 5, Severity.info, []⟩] =
      "a".toList ∧
    "a\nx".toList ≠ "a".toList := by
  refine ⟨by decide, by decide, by decide⟩

/-- C10, amended: the preview pipeline and the apply pipeline compute the
same text for every suggestion list whose members have same-line ranges,
start lines within the content's line count, and newline-free replacement
texts — exactly the shape `parseHookOutput` produces for the content it
parsed against. -/
theorem C10_amended (c : Str) (ss : List Suggestion)
    (h : ∀ s ∈ ss, s.endLine = s.startLine ∧
      s.startLine < (splitOnChar '\n' c).length ∧ '\n' ∉ s.enhanced) :
    acceptChangesContent c ss = applyAllSuggestions c ss := by
  unfold acceptChangesContent applyAllSuggestions
  conv_lhs => rw [← joinWith_splitOnChar '\n' c]
  exact foldl_spliceStep_eq (sortByKeyDesc (fun s => s.startLine) ss)
    (splitOnChar '\n' c) (splitOnChar_ne_nil '\n' c)
    (fun p hp => not_mem_of_mem_splitOnChar '\n' c p hp)
    (fun s hs => h s ((mem_sortByKeyDesc (fun s => s.startLine) s ss).mp hs))

/-- C10, witness for the amended theorem at a concrete in-bounds batch. -/
theorem C10_witness :
    acceptChangesContent ("a\nb".toList)
        [⟨[], [], "a".toList, "z".toList, 0, 0, Severity.info, []⟩,
         ⟨[], [], "b".toList, "w".toList, 1, 1, Severity.info, []⟩] =
      applyAllSuggestions ("a\nb".toList)
        [⟨[], [], "a".toList, "z".toList, 0, 0, Severity.info, []⟩,
         ⟨[], [], "b".toList, "w".toList, 1, 1, Severity.info, []⟩] :=
  C10_amended ("a\nb".toList)
    [⟨[], [], "a".toList, "z".toList, 0, 0, Severity.info, []⟩,
     ⟨[], [], "b".toList, "w".toList, 1, 1, Severity.info, []⟩] (by decide)

end CHooks
